import Mathlib

/-!
Shallow embedding of the hybrid trie + vector search engine
(`src/trie.rs`, `src/vector.rs`, `src/search.rs`) and proofs about it.

Conventions of the embedding:
* Rust `HashMap<String, TrieNode>` becomes an association list
  `List (String × TrieNode)`; `entry(..).or_insert_with(..)` becomes
  first-match update (`setChild`), lookup is first-match (`getChild`).
* Rust `u32`/`usize` counters become `Nat` (no overflow is exercised).
* `f32` scores become `ℚ`: the code only ever compares scores, never
  does float arithmetic on them, so a totally ordered field is faithful
  for every property treated here (NaN never arises in the modelled
  inputs).
* Timestamps (`chrono::DateTime<Utc>.timestamp()`) become `Int` seconds.
* Async collaborators (storage lookup, vector search) become pure
  functions carried in a `SearchEnv` record; the real storage / HNSW
  calls never fail in the source as written, so no error channel is
  modelled for them.
-/

namespace TrieSearch

/-- Rust `CaseId` (`uuid::Uuid`) is opaque; modelled as `Nat`. -/
abbrev CaseId := Nat

/-- Rust `DocRef` from `src/lib.rs`. -/
structure DocRef where
  case_id : CaseId
  paragraph_index : Nat
  char_offset : Option Nat
deriving DecidableEq, Repr

/-- Rust `TrieNode` from `src/trie.rs`: children map, terminal flag,
document references, frequency counter. -/
inductive TrieNode where
  | mk (children : List (String × TrieNode)) (is_end_of_word : Bool)
       (document_refs : List DocRef) (frequency : Nat)
deriving Repr

def TrieNode.children : TrieNode → List (String × TrieNode)
  | .mk c _ _ _ => c

def TrieNode.is_end_of_word : TrieNode → Bool
  | .mk _ e _ _ => e

def TrieNode.document_refs : TrieNode → List DocRef
  | .mk _ _ r _ => r

def TrieNode.frequency : TrieNode → Nat
  | .mk _ _ _ f => f

/-- Rust `TrieNode::new()`. -/
def TrieNode.new : TrieNode := .mk [] false [] 0

/-- First-match association-list lookup (`HashMap::get`). -/
def getChild : List (String × TrieNode) → String → Option TrieNode
  | [], _ => none
  | (k, v) :: rest, key => if k = key then some v else getChild rest key

/-- First-match association-list update (`HashMap::entry(..).or_insert`):
replaces the binding for `key` if present, otherwise appends a new one. -/
def setChild : List (String × TrieNode) → String → TrieNode → List (String × TrieNode)
  | [], key, v => [(key, v)]
  | (k, w) :: rest, key, v =>
      if k = key then (k, v) :: rest else (k, w) :: setChild rest key v

/-- Rust `TrieNode::insert`: walk/create nodes for each token, then mark the
final node terminal, push the DocRef and bump the frequency. -/
def TrieNode.insert : TrieNode → List String → DocRef → TrieNode
  | .mk cs e refs f, [], r => .mk cs true (refs ++ [r]) (f + 1)
  | .mk cs e refs f, t :: ts, r =>
      let child := (getChild cs t).getD TrieNode.new
      .mk (setChild cs t (child.insert ts r)) e refs f

/-- The node reached by walking a token path (the traversal loop at the
start of `TrieNode::search`). -/
def TrieNode.findPath : TrieNode → List String → Option TrieNode
  | n, [] => some n
  | n, t :: ts =>
      match getChild n.children t with
      | none => none
      | some c => c.findPath ts

mutual

/-- Number of nodes of a trie (termination measure for the completion
collection loop). -/
def TrieNode.size : TrieNode → Nat
  | .mk cs _ _ _ => 1 + sizeChildren cs

/-- Total size of a children list. -/
def sizeChildren : List (String × TrieNode) → Nat
  | [] => 0
  | (_, c) :: rest => c.size + sizeChildren rest

end

/-- Rust `TrieSearchResult` from `src/trie.rs`. -/
structure TrieSearchResult where
  exact_matches : List DocRef
  pfx_completions : List String
  total_matches : Nat
deriving DecidableEq, Repr

/-- Sum of node sizes on the DFS stack. -/
def stackMeasure : List (TrieNode × List String) → Nat
  | [] => 0
  | (n, _) :: rest => n.size + stackMeasure rest

theorem sizeChildren_pushed (cs : List (String × TrieNode)) (path : List String)
    (rest : List (TrieNode × List String)) :
    stackMeasure ((cs.map (fun p => (p.2, path ++ [p.1]))).reverse ++ rest)
      = sizeChildren cs + stackMeasure rest := by
  induction cs generalizing rest with
  | nil => simp [stackMeasure, sizeChildren]
  | cons hd tl ih =>
      cases hd with
      | mk k c =>
          simp only [List.map_cons, List.reverse_cons, List.append_assoc,
            List.singleton_append]
          rw [ih]
          simp only [stackMeasure, sizeChildren]
          omega

/-- The explicit-stack DFS loop of `TrieNode::collect_completions`.
The Rust `Vec` stack has its top at the end and children are pushed in
map-iteration order; with the list head as stack top this is
`children.reverse ++ rest`.  Pops an entry, stops once `limit`
completions are collected, records terminal paths strictly longer than
the query path, and pushes all children. -/
def collectLoop (limit pfxLen : Nat) :
    List (TrieNode × List String) → List String → List String
  | [], acc => acc
  | (cur, path) :: rest, acc =>
      if limit ≤ acc.length then acc
      else
        let acc' := if cur.is_end_of_word ∧ pfxLen < path.length
          then acc ++ [String.intercalate " " path] else acc
        collectLoop limit pfxLen
          ((cur.children.map (fun p => (p.2, path ++ [p.1]))).reverse ++ rest) acc'
termination_by st _ => stackMeasure st
decreasing_by
  rw [sizeChildren_pushed]
  cases cur with
  | mk cs e refs f =>
      simp only [stackMeasure, TrieNode.size, TrieNode.children]
      omega

/-- Rust `TrieNode::collect_completions(node, prefix, 10)`. -/
def TrieNode.collect_completions (node : TrieNode) (path : List String)
    (limit : Nat) : List String :=
  collectLoop limit path.length [(node, path)] []

/-- Rust `TrieNode::search`: walk the query path; on a miss return the empty
result, otherwise exact matches (if terminal), DFS completions capped at
10, and their total count. -/
def TrieNode.search (root : TrieNode) (tokens : List String) : TrieSearchResult :=
  match root.findPath tokens with
  | none => ⟨[], [], 0⟩
  | some cur =>
      let exact : List DocRef :=
        if cur.is_end_of_word then cur.document_refs else []
      let comps := TrieNode.collect_completions cur tokens 10
      ⟨exact, comps, exact.length + comps.length⟩

/-- Helper for `splitWhitespace`: scans the character list, splitting on
whitespace runs; `cur` is the (reversed) token being accumulated. -/
def splitWSAux (cs : List Char) (cur : List Char) : List String :=
  match cs with
  | [] => if cur = [] then [] else [String.mk cur.reverse]
  | c :: rest =>
      if c.isWhitespace then
        (if cur = [] then [] else [String.mk cur.reverse]) ++ splitWSAux rest []
      else splitWSAux rest (c :: cur)

/-- Rust `str::split_whitespace` (with `collect`): the maximal non-empty
runs of non-whitespace characters, in order. -/
def splitWhitespace (s : String) : List String := splitWSAux s.data []

/-- Rust `str::to_lowercase` (restricted to the per-character mapping). -/
def toLowercase (s : String) : String := String.mk (s.data.map Char.toLower)

/-- Rust `CaseNameTrie` from `src/trie.rs`. -/
structure CaseNameTrie where
  root : TrieNode

/-- Rust `ContentTrie` from `src/trie.rs`. -/
structure ContentTrie where
  root : TrieNode

/-- Rust `CitationTrie` from `src/trie.rs`. -/
structure CitationTrie where
  root : TrieNode

def CaseNameTrie.new : CaseNameTrie := ⟨TrieNode.new⟩

def ContentTrie.new : ContentTrie := ⟨TrieNode.new⟩

def CitationTrie.new : CitationTrie := ⟨TrieNode.new⟩

/-- The tokenization used by `CaseNameTrie::insert` and
`CaseNameTrie::search`: split on whitespace, lowercase every token. -/
def caseNameTokens (s : String) : List String :=
  (splitWhitespace s).map toLowercase

/-- Rust `CaseNameTrie::insert`: lowercased whitespace tokens, DocRef with
paragraph 0 and no offset. -/
def CaseNameTrie.insert (t : CaseNameTrie) (case_name : String) (case_id : CaseId) :
    CaseNameTrie :=
  ⟨t.root.insert (caseNameTokens case_name) ⟨case_id, 0, none⟩⟩

/-- Rust `CaseNameTrie::search`. -/
def CaseNameTrie.search (t : CaseNameTrie) (query : String) : TrieSearchResult :=
  t.root.search (caseNameTokens query)

/-- Rust `ContentTrie::insert`: lowercases every supplied token. -/
def ContentTrie.insert (t : ContentTrie) (tokens : List String) (doc_ref : DocRef) :
    ContentTrie :=
  ⟨t.root.insert (tokens.map toLowercase) doc_ref⟩

/-- Rust `ContentTrie::search_tokens`: lowercases every supplied token, then
searches. -/
def ContentTrie.search_tokens (t : ContentTrie) (tokens : List String) :
    TrieSearchResult :=
  t.root.search (tokens.map toLowercase)

/-- Rust `CitationTrie::insert`: whitespace tokens with original casing. -/
def CitationTrie.insert (t : CitationTrie) (citation : String) (doc_ref : DocRef) :
    CitationTrie :=
  ⟨t.root.insert (splitWhitespace citation) doc_ref⟩

/-- Rust `CitationTrie::search`: whitespace tokens with original casing. -/
def CitationTrie.search (t : CitationTrie) (query : String) : TrieSearchResult :=
  t.root.search (splitWhitespace query)

/-- Rust `TrieIndex` from `src/trie.rs` (the `TrieConfig` field is unused by
every operation modelled here and is omitted). -/
structure TrieIndex where
  case_name_trie : CaseNameTrie
  content_trie : ContentTrie
  citation_trie : CitationTrie

/-- Rust `TrieIndex::new`. -/
def TrieIndex.new : TrieIndex := ⟨CaseNameTrie.new, ContentTrie.new, CitationTrie.new⟩

/-- Rust `TrieIndex::insert_case_name`. -/
def TrieIndex.insert_case_name (idx : TrieIndex) (case_name : String) (case_id : CaseId) :
    TrieIndex :=
  { idx with case_name_trie := idx.case_name_trie.insert case_name case_id }

/-- Rust `TrieIndex::insert_content`. -/
def TrieIndex.insert_content (idx : TrieIndex) (tokens : List String) (doc_ref : DocRef) :
    TrieIndex :=
  { idx with content_trie := idx.content_trie.insert tokens doc_ref }

/-- Rust `TrieIndex::insert_citation`. -/
def TrieIndex.insert_citation (idx : TrieIndex) (citation : String) (doc_ref : DocRef) :
    TrieIndex :=
  { idx with citation_trie := idx.citation_trie.insert citation doc_ref }

/-- Rust `TrieIndex::search`: case-name sub-trie first, then citation
sub-trie, each kept only when its `exact_matches` is non-empty;
otherwise fall back to the content sub-trie over the whitespace-split
query tokens (passed with their original casing;
`ContentTrie::search_tokens` lowercases internally).  The two sub-trie
`search` calls always return `Ok` in the source, so the `if let Ok`
wrappers vanish. -/
def TrieIndex.search (idx : TrieIndex) (query : String) : TrieSearchResult :=
  let r1 := idx.case_name_trie.search query
  if r1.exact_matches ≠ [] then r1
  else
    let r2 := idx.citation_trie.search query
    if r2.exact_matches ≠ [] then r2
    else idx.content_trie.search_tokens (splitWhitespace query)

/-- The `SearchError` variants reachable from the modelled operations
(`src/errors.rs`). -/
inductive SearchError where
  | invalidSearchQuery (query : String) (reason : String)
  | config (message : String)
  | notSupported (operation : String)
deriving DecidableEq, Repr

/-- Rust `CaseMetadata` (`src/lib.rs`), restricted to the fields the search
engine reads: id, court, decision date (epoch seconds as `Int`). -/
structure CaseMetadata where
  id : CaseId
  court : String
  decision_date : Int
deriving DecidableEq, Repr

/-- Rust `MatchType` (`src/search.rs`); `Prefix` is spelled `pfx`. -/
inductive MatchType where
  | exact
  | pfx
  | semantic
  | caseName
  | citation
deriving DecidableEq, Repr

/-- Rust `SearchResult` (`src/search.rs`); `highlights` is always built as
the empty list by the source and is omitted. -/
structure SearchResult where
  case_metadata : CaseMetadata
  score : ℚ
  match_type : MatchType
  snippet : String
deriving DecidableEq, Repr

/-- Rust `SearchConfig` (`src/lib.rs`); `enable_prefix` is spelled
`enable_pfx`. -/
structure SearchConfig where
  max_results : Nat
  min_similarity : ℚ
  exact_match_weight : ℚ
  enable_semantic : Bool
  enable_pfx : Bool
deriving DecidableEq, Repr

/-- Rust `SearchQuery` (`src/search.rs`); the date range is a pair of epoch
seconds. -/
structure SearchQuery where
  query : String
  max_results : Option Nat
  court_filter : Option (List String)
  date_range : Option (Int × Int)
  config : SearchConfig

/-- Rust `VectorSearchResult` (`src/vector.rs`); the unused `embedding`
field is omitted. -/
structure VectorSearchResult where
  doc_ref : DocRef
  similarity_score : ℚ

/-- The `search`-relevant fields of `SearchEngineConfig`
(`src/config.rs`). -/
structure SearchEngineConfig where
  default_max_results : Nat
  enable_query_cache : Bool
  query_cache_size : Nat
  query_cache_ttl_seconds : Nat
  min_query_length : Nat
  max_query_length : Nat

/-- Rust `CachedResult` (`src/search.rs`): timestamp is `created_at` in
epoch seconds. -/
structure CachedResult where
  results : List SearchResult
  timestamp : Int
  ttl_seconds : Nat

/-- First-match lookup in the cache map (`HashMap::get`). -/
def cacheLookup : List (String × CachedResult) → String → Option CachedResult
  | [], _ => none
  | (k, v) :: rest, key => if k = key then some v else cacheLookup rest key

/-- First-match update in the cache map (`HashMap::insert`): overwrite
the binding if present, otherwise append. -/
def cacheStore : List (String × CachedResult) → String → CachedResult →
    List (String × CachedResult)
  | [], key, v => [(key, v)]
  | (k, w) :: rest, key, v =>
      if k = key then (k, v) :: rest else (k, w) :: cacheStore rest key v

/-- Rust `QueryCache` (`src/search.rs`), the `HashMap` modelled as an
association list. -/
structure QueryCache where
  cache : List (String × CachedResult)
  max_size : Nat

/-- Rust `QueryCache::get`: a hit only when the entry exists and
`now - created_at < ttl`; an expired entry is merely skipped (the map
itself is untouched — `get` takes `&self`). -/
def QueryCache.get (c : QueryCache) (query : String) (now : Int) :
    Option (List SearchResult) :=
  match cacheLookup c.cache query with
  | some cached =>
      if now - cached.timestamp < (cached.ttl_seconds : Int) then some cached.results
      else none
  | none => none

/-- Rust `QueryCache::insert`: when at capacity first evict one entry
(`keys().next()` — an arbitrary entry of the unordered map, modelled as
the list head), then store the new entry stamped `now`. -/
def QueryCache.insert (c : QueryCache) (query : String) (results : List SearchResult)
    (ttl_seconds : Nat) (now : Int) : QueryCache :=
  let base := if c.max_size ≤ c.cache.length then c.cache.drop 1 else c.cache
  ⟨cacheStore base query ⟨results, now, ttl_seconds⟩, c.max_size⟩

/-- The collaborators and state read by one search
(`SearchEngine` minus the cache, `src/search.rs`):
the engine configuration, the trie index behind its lock, the vector
search collaborator (`VectorIndex::search(query, 50)`, which never
fails in the source), and the storage lookup
(`StorageManager::get_case_metadata`, whose error channel is never
exercised by the source). -/
structure SearchEnv where
  search_cfg : SearchEngineConfig
  trie : TrieIndex
  vectorSearch : String → List VectorSearchResult
  storage : CaseId → Option CaseMetadata

/-- Rust `SearchEngine::generate_snippet` (placeholder text). -/
def snippetFor (d : DocRef) : String :=
  "Snippet for case " ++ toString d.case_id ++ " paragraph " ++ toString d.paragraph_index

/-- One step of the lexical-stage loop of
`SearchEngine::execute_hybrid_search`: resolve metadata, and if the
case id is new, emit an `Exact` result scored `exact_match_weight` and
record the id. -/
def trieStep (env : SearchEnv) (weight : ℚ) (acc : List SearchResult × List CaseId)
    (d : DocRef) : List SearchResult × List CaseId :=
  match env.storage d.case_id with
  | none => acc
  | some md =>
      if d.case_id ∈ acc.2 then acc
      else (acc.1 ++ [⟨md, weight, .exact, snippetFor d⟩], acc.2 ++ [d.case_id])

/-- One step of the semantic-stage loop of
`SearchEngine::execute_hybrid_search`: keep results at or above
`min_similarity`, resolve metadata, and if the case id is new, emit a
`Semantic` result scored by similarity. -/
def semStep (env : SearchEnv) (minSim : ℚ) (acc : List SearchResult × List CaseId)
    (v : VectorSearchResult) : List SearchResult × List CaseId :=
  if minSim ≤ v.similarity_score then
    match env.storage v.doc_ref.case_id with
    | none => acc
    | some md =>
        if v.doc_ref.case_id ∈ acc.2 then acc
        else (acc.1 ++ [⟨md, v.similarity_score, .semantic, snippetFor v.doc_ref⟩],
              acc.2 ++ [v.doc_ref.case_id])
  else acc

/-- The merged, not yet sorted result list of
`SearchEngine::execute_hybrid_search` together with the `seen_cases`
set: the lexical stage (when `enable_prefix`) over the trie's exact
matches, then the semantic stage (when `enable_semantic` and fewer than
`config.max_results` results so far) over the vector results. -/
def hybridMerged (env : SearchEnv) (q : SearchQuery) : List SearchResult × List CaseId :=
  let afterTrie :=
    if q.config.enable_pfx then
      ((env.trie.search q.query).exact_matches).foldl
        (trieStep env q.config.exact_match_weight) ([], [])
    else ([], [])
  if q.config.enable_semantic ∧ afterTrie.1.length < q.config.max_results then
    (env.vectorSearch q.query).foldl (semStep env q.config.min_similarity) afterTrie
  else afterTrie

/-- The comparator of step 3 of `execute_hybrid_search`:
`b.score.partial_cmp(&a.score)` — descending by score (scores are `ℚ`
here, so `partial_cmp` is total). -/
def scoreDesc (a b : SearchResult) : Bool := decide (b.score ≤ a.score)

/-- Rust `SearchEngine::apply_filters`: optional court filter, then optional
inclusive date-range filter. -/
def applyFilters (results : List SearchResult) (q : SearchQuery) : List SearchResult :=
  let r1 := match q.court_filter with
    | none => results
    | some cf => results.filter (fun r => decide (r.case_metadata.court ∈ cf))
  match q.date_range with
  | none => r1
  | some (start_date, end_date) =>
      r1.filter (fun r => decide (start_date ≤ r.case_metadata.decision_date ∧
        r.case_metadata.decision_date ≤ end_date))

/-- Rust `SearchEngine::execute_hybrid_search`: merge the two stages, sort
by descending score (`Vec::sort_by` is a stable merge sort), apply the
filters, and truncate to `query.max_results.unwrap_or(config.max_results)`. -/
def executeHybridSearch (env : SearchEnv) (q : SearchQuery) : List SearchResult :=
  let sorted := (hybridMerged env q).1.mergeSort scoreDesc
  let filtered := applyFilters sorted q
  filtered.take (q.max_results.getD q.config.max_results)

/-- Rust `SearchEngine::validate_query`: the query's byte length must lie in
`[min_query_length, max_query_length]`. -/
def validateQuery (cfg : SearchEngineConfig) (q : SearchQuery) : Except SearchError Unit :=
  if q.query.utf8ByteSize < cfg.min_query_length then
    .error (.invalidSearchQuery q.query
      ("Query too short: minimum " ++ toString cfg.min_query_length ++ " characters"))
  else if cfg.max_query_length < q.query.utf8ByteSize then
    .error (.invalidSearchQuery q.query
      ("Query too long: maximum " ++ toString cfg.max_query_length ++ " characters"))
  else .ok ()

/-- What one `SearchEngine::search_with_params` call produced: its
return value, the query cache afterwards, and whether the hybrid-search
stage ran (`false` exactly on the cache-hit and validation-error
paths, where neither index is consulted). -/
structure SearchOutcome where
  result : Except SearchError (List SearchResult)
  cache : QueryCache
  indicesConsulted : Bool

/-- Rust `SearchEngine::search_with_params`: cache lookup (when enabled),
then validation, then hybrid search, then cache write-back (when
enabled). -/
def searchWithParams (env : SearchEnv) (cache : QueryCache) (q : SearchQuery)
    (now : Int) : SearchOutcome :=
  let run : SearchOutcome :=
    match validateQuery env.search_cfg q with
    | .error e => ⟨.error e, cache, false⟩
    | .ok _ =>
        let results := executeHybridSearch env q
        let cache' := if env.search_cfg.enable_query_cache then
            cache.insert q.query results env.search_cfg.query_cache_ttl_seconds now
          else cache
        ⟨.ok results, cache', true⟩
  if env.search_cfg.enable_query_cache then
    match cache.get q.query now with
    | some cached => ⟨.ok cached, cache, false⟩
    | none => run
  else run

/-- Rust `VectorConfig.dimension` is the only vector-configuration field the
modelled operations read. -/
structure VectorConfig where
  dimension : Nat

/-- Rust `HnswIndex` (`src/vector.rs`): the index structure is a
placeholder holding only its configuration. -/
structure HnswIndex where
  config : VectorConfig

/-- Rust `HnswIndex::add_vector` exactly as written in `src/vector.rs`: a
`TODO` stub that ignores the vector and returns `Ok(())` — in
particular it never checks `embedding.len()` against the configured
dimension. -/
def HnswIndex.add_vector (idx : HnswIndex) (doc_ref : DocRef) (embedding : List ℚ) :
    HnswIndex × Except SearchError Unit :=
  (idx, .ok ())

/-- The effect of `TrieNode::insert` on its final node: mark terminal,
append the DocRef, bump the frequency. -/
def markEnd (n : TrieNode) (r : DocRef) : TrieNode :=
  .mk n.children true (n.document_refs ++ [r]) (n.frequency + 1)

/-- A trie built from the empty trie by a sequence of insertions. -/
def buildTrie (ops : List (List String × DocRef)) : TrieNode :=
  ops.foldl (fun t op => t.insert op.1 op.2) TrieNode.new

/-- Well-formedness of the association-list children: every `HashMap`
has pairwise-distinct keys; every trie the source can build satisfies
this (`nodeWF_new`, `nodeWF_insert`). -/
inductive NodeWF : TrieNode → Prop where
  | mk : ∀ cs e refs f, (cs.map Prod.fst).Nodup → (∀ p ∈ cs, NodeWF p.2) →
      NodeWF (.mk cs e refs f)

/-- Every key stored in the query cache has byte length within the
validation bounds.  This holds for every cache reachable from the empty
cache through `searchWithParams` (`cacheOK_empty`,
`cacheOK_searchWithParams`), because results are cached only after
validation has passed. -/
def CacheOK (cfg : SearchEngineConfig) (c : QueryCache) : Prop :=
  ∀ k e, (k, e) ∈ c.cache →
    cfg.min_query_length ≤ k.utf8ByteSize ∧ k.utf8ByteSize ≤ cfg.max_query_length

/-- Concrete trie for the truncation counterexample: the case name
"alpha" inserted for three distinct case ids. -/
def idxC1 : TrieIndex :=
  ((TrieIndex.new.insert_case_name "alpha" 1).insert_case_name
      "alpha" 2).insert_case_name "alpha" 3

/-- Concrete environment for the truncation counterexample: caching
disabled, three cases behind the name "alpha", no vector results,
metadata available for every case id. -/
def envC1 : SearchEnv where
  search_cfg := ⟨10, false, 100, 3600, 1, 100⟩
  trie := idxC1
  vectorSearch := fun _ => []
  storage := fun c => some ⟨c, "Court", 0⟩

/-- Concrete query for the truncation counterexample: per-query cap 3,
configured cap 1, lexical stage only. -/
def qC1 : SearchQuery where
  query := "alpha"
  max_results := some 3
  court_filter := none
  date_range := none
  config := ⟨1, 0, 2, false, true⟩

/-- An empty query cache of capacity 100. -/
def cache0 : QueryCache := ⟨[], 100⟩

/-- Environment with caching enabled, an empty trie, no vector results
and no stored cases (used by the validation and cache witnesses). -/
def envC2 : SearchEnv where
  search_cfg := ⟨10, true, 100, 3600, 2, 10⟩
  trie := TrieIndex.new
  vectorSearch := fun _ => []
  storage := fun _ => none

/-- A query whose text is shorter than `min_query_length = 2`. -/
def qC2 : SearchQuery where
  query := "a"
  max_results := none
  court_filter := none
  date_range := none
  config := ⟨10, 1/2, 2, true, true⟩

/-- Environment where case 1 is found both lexically (case name
"alpha") and semantically (vector result with similarity 9/10). -/
def envC3 : SearchEnv where
  search_cfg := ⟨10, false, 100, 3600, 1, 100⟩
  trie := TrieIndex.new.insert_case_name "alpha" 1
  vectorSearch := fun _ => [⟨⟨1, 0, none⟩, 9/10⟩]
  storage := fun c => some ⟨c, "Court", 0⟩

/-- Query enabling both stages, with similarity threshold 1/2. -/
def qC3 : SearchQuery where
  query := "alpha"
  max_results := none
  court_filter := none
  date_range := none
  config := ⟨10, 1/2, 2, true, true⟩

/-- Trie index whose only contents are in the content sub-trie (used by
the dispatch witness). -/
def idxC5 : TrieIndex := TrieIndex.new.insert_content ["x"] ⟨7, 3, none⟩

/-- A valid query against `envC2` (byte length 2). -/
def qC8 : SearchQuery where
  query := "hi"
  max_results := none
  court_filter := none
  date_range := none
  config := ⟨10, 1/2, 2, true, true⟩

/-- One-entry trie node for the completion witness. -/
def nodeC9 : TrieNode := TrieNode.new.insert ["a"] ⟨1, 0, none⟩

/-- An HNSW index configured for dimension 768. -/
def hnswC4 : HnswIndex := ⟨⟨768⟩⟩

/-! ### Trie lemmas -/

theorem getChild_setChild_self (cs : List (String × TrieNode)) (k : String)
    (v : TrieNode) : getChild (setChild cs k v) k = some v := by
  induction cs with
  | nil => simp [setChild, getChild]
  | cons hd tl ih =>
      cases hd with
      | mk k' w =>
          by_cases hk : k' = k
          · simp [setChild, getChild, hk]
          · simp [setChild, getChild, hk, ih]

theorem getChild_setChild_ne (cs : List (String × TrieNode)) (k x : String)
    (v : TrieNode) (hx : k ≠ x) : getChild (setChild cs k v) x = getChild cs x := by
  induction cs with
  | nil => simp [setChild, getChild, hx]
  | cons hd tl ih =>
      cases hd with
      | mk k' w =>
          by_cases hk : k' = k
          · subst hk; simp [setChild, getChild, hx]
          · simp only [setChild, if_neg hk]
            by_cases hkx : k' = x
            · simp [getChild, hkx]
            · simp [getChild, hkx, ih]

theorem findPath_new_eq (ps : List String) (n : TrieNode)
    (h : TrieNode.new.findPath ps = some n) : n = TrieNode.new := by
  cases ps with
  | nil => simpa [TrieNode.findPath] using h.symm
  | cons x xs => simp [TrieNode.findPath, TrieNode.new, TrieNode.children, getChild] at h

theorem new_findPath_getD (ps : List String) :
    (TrieNode.new.findPath ps).getD TrieNode.new = TrieNode.new := by
  cases ps with
  | nil => simp [TrieNode.findPath]
  | cons x xs => simp [TrieNode.findPath, TrieNode.new, TrieNode.children, getChild]

/-- Rust `TrieNode::insert` reaches exactly the inserted path and leaves
there the old node (or a fresh one) marked terminal, with the DocRef
appended and the frequency bumped. -/
theorem findPath_insert_self (t : TrieNode) (tokens : List String) (r : DocRef) :
    (t.insert tokens r).findPath tokens
      = some (markEnd ((t.findPath tokens).getD TrieNode.new) r) := by
  induction tokens generalizing t with
  | nil =>
      cases t with
      | mk cs e refs f =>
          simp [TrieNode.insert, TrieNode.findPath, markEnd,
            TrieNode.children, TrieNode.document_refs, TrieNode.frequency]
  | cons tok ts ih =>
      cases t with
      | mk cs e refs f =>
          simp only [TrieNode.insert, TrieNode.findPath, TrieNode.children]
          rw [getChild_setChild_self]
          cases hg : getChild cs tok with
          | none => simp [ih, new_findPath_getD]
          | some c => simp [ih]

/-- Rust `TrieNode::insert` does not change the terminal flag, DocRef list or
frequency of any node on a different path: the node either existed
before with the same three fields, or is freshly created
(non-terminal, no refs, frequency 0) on a path that did not exist. -/
theorem findPath_insert_ne (t : TrieNode) (tokens p : List String) (r : DocRef)
    (hne : p ≠ tokens) (n' : TrieNode)
    (h : (t.insert tokens r).findPath p = some n') :
    (∃ n, t.findPath p = some n ∧ n'.is_end_of_word = n.is_end_of_word ∧
      n'.document_refs = n.document_refs ∧ n'.frequency = n.frequency)
    ∨ (t.findPath p = none ∧ n'.is_end_of_word = false ∧
       n'.document_refs = [] ∧ n'.frequency = 0) := by
  induction p generalizing t tokens with
  | nil =>
      cases t with
      | mk cs e refs f =>
          cases tokens with
          | nil => exact absurd rfl hne
          | cons tok ts =>
              simp only [TrieNode.insert, TrieNode.findPath, Option.some_inj] at h
              left
              refine ⟨.mk cs e refs f, rfl, ?_⟩
              subst h
              simp [TrieNode.is_end_of_word, TrieNode.document_refs, TrieNode.frequency]
  | cons x ps ih =>
      cases t with
      | mk cs e refs f =>
          cases tokens with
          | nil =>
              simp only [TrieNode.insert, TrieNode.findPath, TrieNode.children] at h
              exact .inl ⟨n', h, rfl, rfl, rfl⟩
          | cons tok ts =>
              simp only [TrieNode.insert, TrieNode.findPath, TrieNode.children] at h ⊢
              by_cases hx : tok = x
              · subst hx
                rw [getChild_setChild_self] at h
                have hps : ps ≠ ts := fun hc => hne (by rw [hc])
                cases hg : getChild cs tok with
                | none =>
                    rw [hg] at h
                    simp only [hg, Option.getD_none] at h
                    rcases ih TrieNode.new ts hps h with ⟨n, hn, h1, h2, h3⟩ | ⟨_, h1, h2, h3⟩
                    · have := findPath_new_eq ps n hn
                      subst this
                      exact .inr ⟨rfl, by simpa [TrieNode.new,
                        TrieNode.is_end_of_word, TrieNode.document_refs,
                        TrieNode.frequency] using ⟨h1, h2, h3⟩⟩
                    · exact .inr ⟨rfl, h1, h2, h3⟩
                | some c =>
                    rw [hg] at h
                    simp only [hg, Option.getD_some] at h
                    rcases ih c ts hps h with ⟨n, hn, hfields⟩ | ⟨hnone, hfields⟩
                    · exact .inl ⟨n, by simpa using hn, hfields⟩
                    · exact .inr ⟨by simpa using hnone, hfields⟩
              · rw [getChild_setChild_ne cs tok x _ hx] at h
                cases hg : getChild cs x with
                | none => rw [hg] at h; exact absurd h (by simp)
                | some c =>
                    rw [hg] at h
                    exact .inl ⟨n', h, rfl, rfl, rfl⟩

/-- Rust `TrieNode::insert` never removes an existing path. -/
theorem findPath_insert_isSome (t : TrieNode) (tokens p : List String) (r : DocRef)
    (h : (t.findPath p).isSome) : ((t.insert tokens r).findPath p).isSome := by
  induction p generalizing t tokens with
  | nil => simp [TrieNode.findPath]
  | cons x ps ih =>
      cases t with
      | mk cs e refs f =>
          cases tokens with
          | nil =>
              simpa [TrieNode.insert, TrieNode.findPath, TrieNode.children] using h
          | cons tok ts =>
              simp only [TrieNode.findPath, TrieNode.children] at h ⊢
              simp only [TrieNode.insert]
              by_cases hx : tok = x
              · subst hx
                rw [getChild_setChild_self]
                cases hg : getChild cs tok with
                | none => rw [hg] at h; simp at h
                | some c =>
                    rw [hg] at h
                    simpa [hg] using ih c ts h
              · rw [getChild_setChild_ne cs tok x _ hx]
                cases hg : getChild cs x with
                | none => rw [hg] at h; simp at h
                | some c =>
                    rw [hg] at h
                    simpa using h

theorem buildTrie_append (ops : List (List String × DocRef)) (op : List String × DocRef) :
    buildTrie (ops ++ [op]) = (buildTrie ops).insert op.1 op.2 := by
  simp [buildTrie, List.foldl_append]

/-- Every inserted token path exists in the built trie. -/
theorem build_path_exists (ops : List (List String × DocRef)) :
    ∀ op ∈ ops, ((buildTrie ops).findPath op.1).isSome := by
  induction ops using List.reverseRecOn with
  | nil => intro op h; simp at h
  | append_singleton l a ih =>
      intro op hop
      rw [buildTrie_append]
      rcases List.mem_append.1 hop with hl | ha
      · exact findPath_insert_isSome _ _ _ _ (ih op hl)
      · have : op = a := by simpa using ha
        subst this
        rw [findPath_insert_self]
        rfl

/-- Claim C6: in every trie reachable from the empty trie by insertions
of non-empty token sequences, every node's terminal flag holds iff its
DocRef list is non-empty, and its frequency counts exactly the
insertions whose token path ends at that node. -/
theorem c6_trie_node_invariant (ops : List (List String × DocRef))
    (hne : ∀ op ∈ ops, op.1 ≠ []) (p : List String) (n : TrieNode)
    (h : (buildTrie ops).findPath p = some n) :
    (n.is_end_of_word = true ↔ n.document_refs ≠ [])
      ∧ n.frequency = ops.countP (fun op => decide (op.1 = p)) := by
  clear hne
  induction ops using List.reverseRecOn generalizing n with
  | nil =>
      have hn : n = TrieNode.new := findPath_new_eq p n (by simpa [buildTrie] using h)
      subst hn
      constructor
      · simp [TrieNode.new, TrieNode.is_end_of_word, TrieNode.document_refs]
      · simp [TrieNode.new, TrieNode.frequency]
  | append_singleton l a ih =>
      rw [buildTrie_append] at h
      have hcount : (l ++ [a]).countP (fun op => decide (op.1 = p))
          = l.countP (fun op => decide (op.1 = p))
            + (if a.1 = p then 1 else 0) := by
        simp [List.countP_append, List.countP_cons]
      by_cases hp : p = a.1
      · rw [← hp] at h
        rw [findPath_insert_self] at h
        have hn : n = markEnd (((buildTrie l).findPath p).getD TrieNode.new) a.2 :=
          by simpa using h.symm
        subst hn
        refine ⟨by simp [markEnd, TrieNode.is_end_of_word, TrieNode.document_refs], ?_⟩
        rw [hcount, if_pos hp.symm]
        simp only [markEnd, TrieNode.frequency]
        cases hg : (buildTrie l).findPath p with
        | none =>
            have hzero : l.countP (fun op => decide (op.1 = p)) = 0 := by
              by_contra hnz
              rcases List.countP_pos_iff.1 (Nat.pos_of_ne_zero hnz) with ⟨op, hopl, hopp⟩
              have hsome := build_path_exists l op hopl
              rw [show op.1 = p from of_decide_eq_true hopp, hg] at hsome
              simp at hsome
            simp [TrieNode.new, TrieNode.frequency, hzero]
        | some m =>
            have hm := (ih m hg).2
            simp only [Option.getD_some]
            simp only [TrieNode.frequency] at hm
            omega
      · have hif : (if a.1 = p then 1 else 0) = 0 :=
          if_neg (fun hx => hp hx.symm)
        rcases findPath_insert_ne (buildTrie l) a.1 p a.2 hp n h with
          ⟨m, hm, h1, h2, h3⟩ | ⟨hnone, h1, h2, h3⟩
        · have hi := ih m hm
          rw [h1, h2, h3, hcount, hif]
          simpa using hi
        · have hzero : l.countP (fun op => decide (op.1 = p)) = 0 := by
            by_contra hnz
            rcases List.countP_pos_iff.1 (Nat.pos_of_ne_zero hnz) with ⟨op, hopl, hopp⟩
            have hsome := build_path_exists l op hopl
            rw [show op.1 = p from of_decide_eq_true hopp, hnone] at hsome
            simp at hsome
          refine ⟨by rw [h1, h2]; simp, ?_⟩
          rw [h3, hcount, hif, hzero]

/-- Claim C7: inserting a case name and then searching for any query
that normalizes (whitespace-split + lowercase) to the same tokens
returns the inserted case id among the exact matches: case-name lookup
is case-insensitive. -/
theorem c7_case_name_roundtrip (t : CaseNameTrie) (name query : String)
    (case_id : CaseId) (h : caseNameTokens query = caseNameTokens name) :
    (⟨case_id, 0, none⟩ : DocRef)
      ∈ ((t.insert name case_id).search query).exact_matches := by
  unfold CaseNameTrie.insert CaseNameTrie.search
  rw [h]
  unfold TrieNode.search
  rw [findPath_insert_self]
  simp [markEnd, TrieNode.is_end_of_word, TrieNode.document_refs]

/-- Witness for C7 at the spec's own example. -/
theorem c7_case_name_roundtrip_witness :
    caseNameTokens "brown v. board of education"
        = caseNameTokens "Brown v. Board of Education"
    ∧ (⟨42, 0, none⟩ : DocRef)
        ∈ ((CaseNameTrie.new.insert "Brown v. Board of Education" 42).search
            "brown v. board of education").exact_matches :=
  ⟨by decide, c7_case_name_roundtrip CaseNameTrie.new _ _ 42 (by decide)⟩

/-- Claim C10: `total_matches` always equals the number of exact
matches plus the number of completions, on the hit path and on the miss
path alike. -/
theorem c10_total_matches (root : TrieNode) (tokens : List String) :
    (root.search tokens).total_matches
      = (root.search tokens).exact_matches.length
        + (root.search tokens).pfx_completions.length := by
  unfold TrieNode.search
  cases root.findPath tokens <;> simp

/-- Claim C5: the top-level `TrieIndex::search` returns the case-name
result when it has exact matches, otherwise the citation result when it
has exact matches, otherwise the content-sub-trie search over the
whitespace-split query tokens passed with their original casing. -/
theorem c5_search_dispatch (idx : TrieIndex) (query : String) :
    ((idx.case_name_trie.search query).exact_matches ≠ [] →
        idx.search query = idx.case_name_trie.search query)
    ∧ ((idx.case_name_trie.search query).exact_matches = [] →
        (idx.citation_trie.search query).exact_matches ≠ [] →
        idx.search query = idx.citation_trie.search query)
    ∧ ((idx.case_name_trie.search query).exact_matches = [] →
        (idx.citation_trie.search query).exact_matches = [] →
        idx.search query = idx.content_trie.search_tokens (splitWhitespace query)) := by
  unfold TrieIndex.search
  refine ⟨?_, ?_, ?_⟩ <;> intros <;> simp [*]

/-- Witness for C5: on an index whose only contents sit in the content
sub-trie, the query "x" falls through to the content stage. -/
theorem c5_search_dispatch_witness :
    (idxC5.case_name_trie.search "x").exact_matches = []
    ∧ (idxC5.citation_trie.search "x").exact_matches = []
    ∧ idxC5.search "x" = idxC5.content_trie.search_tokens (splitWhitespace "x") :=
  ⟨by decide, by decide,
    (c5_search_dispatch idxC5 "x").2.2 (by decide) (by decide)⟩

/-! ### Well-formed children maps and the completion DFS -/

theorem NodeWF.children_nodup {n : TrieNode} (h : NodeWF n) :
    (n.children.map Prod.fst).Nodup := by
  cases h with
  | mk cs e refs f hk hc => exact hk

theorem NodeWF.child {n : TrieNode} (h : NodeWF n) :
    ∀ p ∈ n.children, NodeWF p.2 := by
  cases h with
  | mk cs e refs f hk hc => exact hc

theorem nodeWF_new : NodeWF TrieNode.new := by
  refine NodeWF.mk [] false [] 0 (by simp) (by simp)

theorem getChild_mem (cs : List (String × TrieNode)) (k : String) (c : TrieNode)
    (h : getChild cs k = some c) : (k, c) ∈ cs := by
  induction cs with
  | nil => simp [getChild] at h
  | cons hd tl ih =>
      cases hd with
      | mk k' w =>
          by_cases hk : k' = k
          · subst hk
            simp [getChild] at h
            simp [h]
          · simp [getChild, hk] at h
            exact List.mem_cons_of_mem _ (ih h)

theorem mem_getChild (cs : List (String × TrieNode)) (k : String) (c : TrieNode)
    (hmem : (k, c) ∈ cs) (hnd : (cs.map Prod.fst).Nodup) : getChild cs k = some c := by
  induction cs with
  | nil => simp at hmem
  | cons hd tl ih =>
      cases hd with
      | mk k' w =>
          rcases List.mem_cons.1 hmem with heq | htl
          · cases heq
            simp [getChild]
          · have hk : k' ≠ k := by
              intro hx
              subst hx
              have hmem2 : k' ∈ tl.map Prod.fst :=
                List.mem_map.2 ⟨(k', c), htl, rfl⟩
              rw [List.map_cons, List.nodup_cons] at hnd
              exact hnd.1 hmem2
            simp only [getChild, if_neg hk]
            rw [List.map_cons, List.nodup_cons] at hnd
            exact ih htl hnd.2

theorem NodeWF_findPath (t : TrieNode) (p : List String) (n : TrieNode)
    (hwf : NodeWF t) (h : t.findPath p = some n) : NodeWF n := by
  induction p generalizing t with
  | nil =>
      have ht : t = n := by simpa [TrieNode.findPath] using h
      exact ht ▸ hwf
  | cons x ps ih =>
      simp only [TrieNode.findPath] at h
      cases hg : getChild t.children x with
      | none => rw [hg] at h; simp at h
      | some c =>
          rw [hg] at h
          exact ih c (hwf.child _ (getChild_mem _ _ _ hg)) h

theorem keys_setChild (cs : List (String × TrieNode)) (k x : String) (v : TrieNode)
    (h : x ∈ (setChild cs k v).map Prod.fst) : x ∈ cs.map Prod.fst ∨ x = k := by
  induction cs with
  | nil => simpa [setChild] using h
  | cons hd tl ih =>
      cases hd with
      | mk k' w =>
          by_cases hk : k' = k
          · subst hk
            simp only [setChild, if_pos rfl] at h
            exact .inl (by simpa using h)
          · simp only [setChild, if_neg hk, List.map_cons, List.mem_cons] at h
            rcases h with h | h
            · exact .inl (by simp [h])
            · rcases ih h with h1 | h1
              · exact .inl (by simp [h1])
              · exact .inr h1

theorem setChild_keys_nodup (cs : List (String × TrieNode)) (k : String) (v : TrieNode)
    (hnd : (cs.map Prod.fst).Nodup) : ((setChild cs k v).map Prod.fst).Nodup := by
  induction cs with
  | nil => simp [setChild]
  | cons hd tl ih =>
      cases hd with
      | mk k' w =>
          have hnd' : k' ∉ tl.map Prod.fst ∧ (tl.map Prod.fst).Nodup := by
            rw [List.map_cons, List.nodup_cons] at hnd
            exact hnd
          by_cases hk : k' = k
          · subst hk
            simp only [setChild, if_pos rfl, List.map_cons]
            simpa using hnd
          · simp only [setChild, if_neg hk, List.map_cons, List.nodup_cons]
            refine ⟨?_, ih hnd'.2⟩
            intro hx
            rcases keys_setChild tl k k' v hx with h1 | h1
            · exact hnd'.1 h1
            · exact hk h1

theorem mem_setChild (cs : List (String × TrieNode)) (k : String) (v : TrieNode)
    (p : String × TrieNode) (h : p ∈ setChild cs k v) : p = (k, v) ∨ p ∈ cs := by
  induction cs with
  | nil => simpa [setChild] using h
  | cons hd tl ih =>
      cases hd with
      | mk k' w =>
          by_cases hk : k' = k
          · rw [show setChild ((k', w) :: tl) k v = (k', v) :: tl from by
              simp [setChild, hk]] at h
            rcases List.mem_cons.1 h with h2 | h2
            · exact .inl (by rw [h2, hk])
            · exact .inr (List.mem_cons_of_mem _ h2)
          · rw [show setChild ((k', w) :: tl) k v = (k', w) :: setChild tl k v from by
              simp [setChild, hk]] at h
            rcases List.mem_cons.1 h with h2 | h2
            · exact .inr (by simp [h2])
            · cases ih h2 with
              | inl h3 => exact .inl h3
              | inr h3 => exact .inr (List.mem_cons_of_mem _ h3)

/-- Rust `TrieNode::insert` preserves well-formedness: every trie the source
builds has `HashMap`-like children maps. -/
theorem nodeWF_insert (t : TrieNode) (tokens : List String) (r : DocRef)
    (hwf : NodeWF t) : NodeWF (t.insert tokens r) := by
  induction tokens generalizing t with
  | nil =>
      cases t with
      | mk cs e refs f =>
          exact NodeWF.mk _ _ _ _ (by simpa using hwf.children_nodup)
            (by simpa using hwf.child)
  | cons tok ts ih =>
      cases t with
      | mk cs e refs f =>
          have hnd : (cs.map Prod.fst).Nodup := by simpa using hwf.children_nodup
          refine NodeWF.mk _ _ _ _ (setChild_keys_nodup cs tok _ hnd) ?_
          intro p hp
          rcases mem_setChild cs tok _ p hp with h1 | h1
          · subst h1
            refine ih _ ?_
            cases hg : getChild cs tok with
            | none => simpa [hg] using nodeWF_new
            | some c =>
                have := hwf.child (tok, c) (getChild_mem cs tok c hg)
                simpa [hg] using this
          · exact hwf.child p h1

theorem findPath_append_one (t : TrieNode) (xs : List String) (k : String) :
    t.findPath (xs ++ [k])
      = match t.findPath xs with
        | none => none
        | some n => getChild n.children k := by
  induction xs generalizing t with
  | nil =>
      simp only [List.nil_append, TrieNode.findPath]
      cases getChild t.children k <;> rfl
  | cons x rest ih =>
      simp only [List.cons_append, TrieNode.findPath]
      cases getChild t.children x with
      | none => rfl
      | some c => exact ih c

/-- Loop invariant of the completion DFS: every stack entry is a
descendant of the query node carrying its full token path, every
accumulated string is the joined path of a strictly-deeper terminal
descendant, and the accumulator never exceeds the limit. -/
theorem collectLoop_spec (limit : Nat) (tokens : List String) (cur : TrieNode)
    (hwf : NodeWF cur) (stack : List (TrieNode × List String)) (acc : List String)
    (hstack : ∀ e ∈ stack, ∃ ext, e.2 = tokens ++ ext ∧ cur.findPath ext = some e.1)
    (hacc : ∀ s ∈ acc, ∃ ext n, ext ≠ [] ∧ cur.findPath ext = some n ∧
        n.is_end_of_word = true ∧ s = String.intercalate " " (tokens ++ ext))
    (hlen : acc.length ≤ limit) :
    (∀ s ∈ collectLoop limit tokens.length stack acc, ∃ ext n, ext ≠ [] ∧
        cur.findPath ext = some n ∧ n.is_end_of_word = true ∧
        s = String.intercalate " " (tokens ++ ext))
    ∧ (collectLoop limit tokens.length stack acc).length ≤ limit := by
  induction stack, acc using collectLoop.induct limit tokens.length with
  | case1 acc =>
      rw [collectLoop]
      exact ⟨hacc, hlen⟩
  | case2 nd path rest acc hle =>
      rw [collectLoop, if_pos hle]
      exact ⟨hacc, hlen⟩
  | case3 nd path rest acc hle acc' ih =>
      rw [collectLoop, if_neg hle]
      rcases hstack (nd, path) (by simp) with ⟨ext, hpath0, hfind0⟩
      have hpath : path = tokens ++ ext := hpath0
      have hfind : cur.findPath ext = some nd := hfind0
      have hwfn : NodeWF nd := NodeWF_findPath cur ext nd hwf hfind
      have hstack2 : ∀ e ∈ (nd.children.map (fun p => (p.2, path ++ [p.1]))).reverse
          ++ rest, ∃ ext2, e.2 = tokens ++ ext2 ∧ cur.findPath ext2 = some e.1 := by
        intro e he
        rcases List.mem_append.1 he with h1 | h1
        · rw [List.mem_reverse] at h1
          rcases List.mem_map.1 h1 with ⟨⟨k, c⟩, hkc, hev⟩
          refine ⟨ext ++ [k], ?_, ?_⟩
          · rw [← hev]
            show path ++ [k] = tokens ++ (ext ++ [k])
            rw [hpath, List.append_assoc]
          · rw [← hev]
            show cur.findPath (ext ++ [k]) = some c
            rw [findPath_append_one, hfind]
            simpa using mem_getChild nd.children k c hkc hwfn.children_nodup
        · exact hstack e (List.mem_cons_of_mem _ h1)
      by_cases hcond : nd.is_end_of_word = true ∧ tokens.length < path.length
      · have hacc2 : ∀ s ∈ acc ++ [String.intercalate " " path],
            ∃ ext2 n, ext2 ≠ [] ∧ cur.findPath ext2 = some n ∧
              n.is_end_of_word = true ∧
              s = String.intercalate " " (tokens ++ ext2) := by
          intro s hs
          rcases List.mem_append.1 hs with h1 | h1
          · exact hacc s h1
          · have hsx : s = String.intercalate " " path := by simpa using h1
            refine ⟨ext, nd, ?_, hfind, hcond.1, by rw [hsx, hpath]⟩
            intro hx
            subst hx
            rw [hpath] at hcond
            simp at hcond
        have hlen2 : (acc ++ [String.intercalate " " path]).length ≤ limit := by
          simp only [List.length_append, List.length_cons, List.length_nil]
          omega
        have hrec := ih hstack2
        unfold acc' at hrec
        simp only [dif_pos hcond, if_pos hcond] at hrec ⊢
        exact hrec hacc2 hlen2
      · have hrec := ih hstack2
        unfold acc' at hrec
        simp only [dif_neg hcond, if_neg hcond] at hrec ⊢
        exact hrec hacc hlen

/-- Claim C9: when the query path exists, every completion is the
space-join of the token path of a terminal descendant strictly below
the query node, and there are never more than 10 completions, whatever
the trie contains.  (Well-formedness of the children maps —
`HashMap`-unique keys — holds for every trie the source can build:
`nodeWF_new`, `nodeWF_insert`.) -/
theorem c9_completions_spec (root : TrieNode) (tokens : List String)
    (cur : TrieNode) (hwf : NodeWF root) (h : root.findPath tokens = some cur) :
    (root.search tokens).pfx_completions.length ≤ 10
    ∧ ∀ s ∈ (root.search tokens).pfx_completions,
        ∃ ext n, ext ≠ [] ∧ cur.findPath ext = some n ∧
          n.is_end_of_word = true ∧ s = String.intercalate " " (tokens ++ ext) := by
  have hwfc : NodeWF cur := NodeWF_findPath root tokens cur hwf h
  have hspec := collectLoop_spec 10 tokens cur hwfc [(cur, tokens)] []
    (by
      intro e he
      have he2 : e = (cur, tokens) := by simpa using he
      subst he2
      exact ⟨[], by simp, rfl⟩)
    (by simp) (by simp)
  unfold TrieNode.search
  rw [h]
  simp only
  exact ⟨hspec.2, hspec.1⟩

/-- Witness for C9 on the one-word trie `nodeC9`. -/
theorem c9_completions_witness :
    NodeWF nodeC9 ∧ nodeC9.findPath ["a"] = some (TrieNode.mk [] true [⟨1, 0, none⟩] 1)
    ∧ (nodeC9.search ["a"]).pfx_completions.length ≤ 10 :=
  have hwf : NodeWF nodeC9 := nodeWF_insert TrieNode.new ["a"] ⟨1, 0, none⟩ nodeWF_new
  have hfind : nodeC9.findPath ["a"] = some (TrieNode.mk [] true [⟨1, 0, none⟩] 1) := by
    simp [nodeC9, TrieNode.insert, TrieNode.new, TrieNode.findPath, getChild,
      setChild, TrieNode.children]
  ⟨hwf, hfind, (c9_completions_spec nodeC9 ["a"] _ hwf hfind).1⟩

/-- Witness for C6: one insertion of a one-token path. -/
theorem c6_trie_node_invariant_witness :
    (∀ op ∈ [((["brown"], (⟨1, 0, none⟩ : DocRef)))], op.1 ≠ ([] : List String))
    ∧ (buildTrie [(["brown"], ⟨1, 0, none⟩)]).findPath ["brown"]
        = some (.mk [] true [⟨1, 0, none⟩] 1)
    ∧ (((TrieNode.mk [] true [⟨1, 0, none⟩] 1).is_end_of_word = true
          ↔ (TrieNode.mk [] true [⟨1, 0, none⟩] 1).document_refs ≠ [])
        ∧ (TrieNode.mk [] true [⟨1, 0, none⟩] 1).frequency
            = [((["brown"], (⟨1, 0, none⟩ : DocRef)))].countP
                (fun op => decide (op.1 = ["brown"]))) :=
  have h1 : ∀ op ∈ [((["brown"], (⟨1, 0, none⟩ : DocRef)))], op.1 ≠ ([] : List String) :=
    by decide
  have h2 : (buildTrie [(["brown"], ⟨1, 0, none⟩)]).findPath ["brown"]
      = some (.mk [] true [⟨1, 0, none⟩] 1) := by rfl
  ⟨h1, h2, c6_trie_node_invariant _ h1 _ _ h2⟩

/-! ### Query cache lemmas -/

theorem cacheLookup_mem (cs : List (String × CachedResult)) (k : String)
    (e : CachedResult) (h : cacheLookup cs k = some e) : (k, e) ∈ cs := by
  induction cs with
  | nil => simp [cacheLookup] at h
  | cons hd tl ih =>
      cases hd with
      | mk k' w =>
          by_cases hk : k' = k
          · subst hk
            simp [cacheLookup] at h
            simp [h]
          · simp [cacheLookup, hk] at h
            exact List.mem_cons_of_mem _ (ih h)

theorem mem_cacheStore (cs : List (String × CachedResult)) (k : String)
    (v : CachedResult) (p : String × CachedResult) (h : p ∈ cacheStore cs k v) :
    p = (k, v) ∨ p ∈ cs := by
  induction cs with
  | nil => simpa [cacheStore] using h
  | cons hd tl ih =>
      cases hd with
      | mk k' w =>
          by_cases hk : k' = k
          · rw [show cacheStore ((k', w) :: tl) k v = (k', v) :: tl from by
              simp [cacheStore, hk]] at h
            rcases List.mem_cons.1 h with h2 | h2
            · exact .inl (by rw [h2, hk])
            · exact .inr (List.mem_cons_of_mem _ h2)
          · rw [show cacheStore ((k', w) :: tl) k v = (k', w) :: cacheStore tl k v from by
              simp [cacheStore, hk]] at h
            rcases List.mem_cons.1 h with h2 | h2
            · exact .inr (by simp [h2])
            · cases ih h2 with
              | inl h3 => exact .inl h3
              | inr h3 => exact .inr (List.mem_cons_of_mem _ h3)

theorem cacheStore_lookup_self (cs : List (String × CachedResult)) (k : String)
    (v : CachedResult) : cacheLookup (cacheStore cs k v) k = some v := by
  induction cs with
  | nil => simp [cacheStore, cacheLookup]
  | cons hd tl ih =>
      cases hd with
      | mk k' w =>
          by_cases hk : k' = k
          · simp [cacheStore, cacheLookup, hk]
          · simp [cacheStore, cacheLookup, hk, ih]

theorem cacheOK_empty (cfg : SearchEngineConfig) (n : Nat) : CacheOK cfg ⟨[], n⟩ := by
  intro k e h
  simp at h

/-- Rust `QueryCache::insert` with an in-bounds key preserves `CacheOK`. -/
theorem cacheOK_insert (cfg : SearchEngineConfig) (c : QueryCache) (k : String)
    (rs : List SearchResult) (ttl : Nat) (now : Int) (hok : CacheOK cfg c)
    (hk : cfg.min_query_length ≤ k.utf8ByteSize
      ∧ k.utf8ByteSize ≤ cfg.max_query_length) :
    CacheOK cfg (c.insert k rs ttl now) := by
  intro k' e' hmem
  unfold QueryCache.insert at hmem
  simp only at hmem
  rcases mem_cacheStore _ _ _ _ hmem with h1 | h1
  · cases h1
    exact hk
  · by_cases hsize : c.max_size ≤ c.cache.length
    · rw [if_pos hsize] at h1
      exact hok k' e' (List.drop_subset 1 c.cache h1)
    · rw [if_neg hsize] at h1
      exact hok k' e' h1

/-- If validation passes, the query's byte length is within bounds. -/
theorem validateQuery_ok_bounds (cfg : SearchEngineConfig) (q : SearchQuery)
    (h : validateQuery cfg q = .ok ()) :
    cfg.min_query_length ≤ q.query.utf8ByteSize
      ∧ q.query.utf8ByteSize ≤ cfg.max_query_length := by
  unfold validateQuery at h
  by_cases h1 : q.query.utf8ByteSize < cfg.min_query_length
  · rw [if_pos h1] at h
    exact absurd h (by simp)
  · rw [if_neg h1] at h
    by_cases h2 : cfg.max_query_length < q.query.utf8ByteSize
    · rw [if_pos h2] at h
      exact absurd h (by simp)
    · omega

/-- Rust `search_with_params` preserves `CacheOK`: only validated query
texts are ever written to the cache. -/
theorem cacheOK_searchWithParams (env : SearchEnv) (cache : QueryCache)
    (q : SearchQuery) (now : Int) (hok : CacheOK env.search_cfg cache) :
    CacheOK env.search_cfg (searchWithParams env cache q now).cache := by
  unfold searchWithParams
  have hrun : CacheOK env.search_cfg
      (match validateQuery env.search_cfg q with
        | .error e => (⟨.error e, cache, false⟩ : SearchOutcome)
        | .ok _ =>
            ⟨.ok (executeHybridSearch env q),
              if env.search_cfg.enable_query_cache then
                cache.insert q.query (executeHybridSearch env q)
                  env.search_cfg.query_cache_ttl_seconds now
              else cache, true⟩).cache := by
    cases hval : validateQuery env.search_cfg q with
    | error e => exact hok
    | ok u =>
        cases u
        simp only
        by_cases hen : env.search_cfg.enable_query_cache = true
        · rw [if_pos hen]
          exact cacheOK_insert _ _ _ _ _ _ hok (validateQuery_ok_bounds _ _ hval)
        · rw [if_neg hen]
          exact hok
  by_cases hen : env.search_cfg.enable_query_cache = true
  · rw [if_pos hen]
    cases cache.get q.query now with
    | none => simpa using hrun
    | some cached => exact hok
  · rw [if_neg hen]
    simpa using hrun

/-- Claim C2: on any reachable cache (`CacheOK`, satisfied by the empty
cache and preserved by every search), a query whose byte length is
below `min_query_length` or above `max_query_length` makes
`search_with_params` return the invalid-query validation error, and the
hybrid stage — the only place the trie or vector index is consulted —
never runs. -/
theorem c2_validation_rejects_out_of_bounds (env : SearchEnv) (cache : QueryCache)
    (q : SearchQuery) (now : Int) (hok : CacheOK env.search_cfg cache)
    (hlen : q.query.utf8ByteSize < env.search_cfg.min_query_length
        ∨ env.search_cfg.max_query_length < q.query.utf8ByteSize) :
    (∃ reason, (searchWithParams env cache q now).result
        = .error (.invalidSearchQuery q.query reason))
    ∧ (searchWithParams env cache q now).indicesConsulted = false := by
  have hget : cache.get q.query now = none := by
    unfold QueryCache.get
    cases hlk : cacheLookup cache.cache q.query with
    | none => rfl
    | some e =>
        exfalso
        have hb := hok q.query e (cacheLookup_mem cache.cache q.query e hlk)
        omega
  have hval : ∃ reason, validateQuery env.search_cfg q
      = .error (.invalidSearchQuery q.query reason) := by
    unfold validateQuery
    by_cases hshort : q.query.utf8ByteSize < env.search_cfg.min_query_length
    · exact ⟨_, by rw [if_pos hshort]⟩
    · have hlong : env.search_cfg.max_query_length < q.query.utf8ByteSize := by omega
      exact ⟨_, by rw [if_neg hshort, if_pos hlong]⟩
  rcases hval with ⟨reason, hval⟩
  unfold searchWithParams
  by_cases hen : env.search_cfg.enable_query_cache = true
  · rw [if_pos hen, hget]
    simp only [hval]
    exact ⟨⟨reason, rfl⟩, trivial⟩
  · rw [if_neg hen]
    simp only [hval]
    exact ⟨⟨reason, rfl⟩, trivial⟩

/-- Witness for C2: the one-byte query "a" against bounds `[2, 10]` on
the empty cache. -/
theorem c2_validation_witness :
    CacheOK envC2.search_cfg cache0
    ∧ ("a".utf8ByteSize < envC2.search_cfg.min_query_length
        ∨ envC2.search_cfg.max_query_length < "a".utf8ByteSize)
    ∧ (∃ reason, (searchWithParams envC2 cache0 qC2 0).result
        = .error (.invalidSearchQuery "a" reason))
    ∧ (searchWithParams envC2 cache0 qC2 0).indicesConsulted = false :=
  have hok : CacheOK envC2.search_cfg cache0 := cacheOK_empty _ _
  have hlen : "a".utf8ByteSize < envC2.search_cfg.min_query_length
      ∨ envC2.search_cfg.max_query_length < "a".utf8ByteSize := by
    left; decide
  ⟨hok, hlen, (c2_validation_rejects_out_of_bounds envC2 cache0 qC2 0 hok hlen).1,
    (c2_validation_rejects_out_of_bounds envC2 cache0 qC2 0 hok hlen).2⟩

/-- A `search_with_params` call that consulted the indices was a cache
miss that passed validation: it returns the hybrid-search result and
(when caching is enabled) writes it back under the raw query text. -/
theorem searchWithParams_consulted (env : SearchEnv) (cache : QueryCache)
    (q : SearchQuery) (now : Int)
    (h : (searchWithParams env cache q now).indicesConsulted = true) :
    (searchWithParams env cache q now).result = .ok (executeHybridSearch env q)
    ∧ (env.search_cfg.enable_query_cache = true →
        (searchWithParams env cache q now).cache
          = cache.insert q.query (executeHybridSearch env q)
              env.search_cfg.query_cache_ttl_seconds now) := by
  by_cases hen : env.search_cfg.enable_query_cache = true
  · cases hget : cache.get q.query now with
    | some cached =>
        exfalso
        simp [searchWithParams, hen, hget] at h
    | none =>
        cases hval : validateQuery env.search_cfg q with
        | error e =>
            exfalso
            simp [searchWithParams, hen, hget, hval] at h
        | ok u =>
            cases u
            constructor
            · simp [searchWithParams, hen, hget, hval]
            · intro hc
              simp [searchWithParams, hen, hget, hval]
  · cases hval : validateQuery env.search_cfg q with
    | error e =>
        exfalso
        simp [searchWithParams, hen, hval] at h
    | ok u =>
        cases u
        exact ⟨by simp [searchWithParams, hen, hval], fun hc => absurd hc hen⟩

/-- Claim C8: `QueryCache::get` hits exactly when an entry exists whose
age is strictly below its TTL (expired entries are treated as absent,
and `get` never mutates the map — it is a pure read in the embedding,
as `&self` is in the source); consequently a search that computed fresh
results makes the same query text, re-issued within the TTL, return
the identical result list from the cache without running the hybrid
stage again. -/
theorem c8_cache_ttl :
    (∀ (c : QueryCache) (k : String) (now : Int) (rs : List SearchResult),
      c.get k now = some rs ↔ ∃ e, cacheLookup c.cache k = some e
        ∧ now - e.timestamp < (e.ttl_seconds : Int) ∧ rs = e.results)
    ∧ (∀ (env : SearchEnv) (cache : QueryCache) (q : SearchQuery) (t0 t1 : Int),
        env.search_cfg.enable_query_cache = true →
        (searchWithParams env cache q t0).indicesConsulted = true →
        t1 - t0 < (env.search_cfg.query_cache_ttl_seconds : Int) →
        (searchWithParams env (searchWithParams env cache q t0).cache q t1).result
            = (searchWithParams env cache q t0).result
        ∧ (searchWithParams env
            (searchWithParams env cache q t0).cache q t1).indicesConsulted = false) := by
  constructor
  · intro c k now rs
    unfold QueryCache.get
    cases hlk : cacheLookup c.cache k with
    | none => simp
    | some e =>
        dsimp only
        by_cases hage : now - e.timestamp < (e.ttl_seconds : Int)
        · rw [if_pos hage]
          constructor
          · intro h
            exact ⟨e, rfl, hage, (Option.some_inj.1 h).symm⟩
          · rintro ⟨e', he', hage', hrs⟩
            cases Option.some_inj.1 he'
            rw [hrs]
        · rw [if_neg hage]
          constructor
          · intro h
            simp at h
          · rintro ⟨e', he', hage', hrs⟩
            cases Option.some_inj.1 he'
            exact absurd hage' hage
  · intro env cache q t0 t1 hen hcons hage
    obtain ⟨hres, hcache⟩ := searchWithParams_consulted env cache q t0 hcons
    rw [hcache hen, hres]
    have hget2 : (cache.insert q.query (executeHybridSearch env q)
        env.search_cfg.query_cache_ttl_seconds t0).get q.query t1
        = some (executeHybridSearch env q) := by
      unfold QueryCache.get QueryCache.insert
      simp only
      rw [cacheStore_lookup_self]
      dsimp only
      rw [if_pos hage]
    constructor
    · simp [searchWithParams, hen, hget2]
    · simp [searchWithParams, hen, hget2]

/-- Witness for C8 part 2: the query "hi" computed fresh at time 0,
re-issued at time 10 against the written-back cache. -/
theorem c8_cache_ttl_witness :
    envC2.search_cfg.enable_query_cache = true
    ∧ (searchWithParams envC2 cache0 qC8 0).indicesConsulted = true
    ∧ ((10 : Int) - 0 < (envC2.search_cfg.query_cache_ttl_seconds : Int))
    ∧ (searchWithParams envC2 (searchWithParams envC2 cache0 qC8 0).cache qC8 10).result
        = (searchWithParams envC2 cache0 qC8 0).result
    ∧ (searchWithParams envC2
        (searchWithParams envC2 cache0 qC8 0).cache qC8 10).indicesConsulted = false :=
  have h1 : envC2.search_cfg.enable_query_cache = true := rfl
  have h2 : (searchWithParams envC2 cache0 qC8 0).indicesConsulted = true := rfl
  have h3 : (10 : Int) - 0 < (envC2.search_cfg.query_cache_ttl_seconds : Int) := by decide
  ⟨h1, h2, h3, (c8_cache_ttl.2 envC2 cache0 qC8 0 10 h1 h2 h3).1,
    (c8_cache_ttl.2 envC2 cache0 qC8 0 10 h1 h2 h3).2⟩

/-! ### Fusion: truncation, ordering, deduplication -/

theorem applyFilters_none (results : List SearchResult) (q : SearchQuery)
    (hc : q.court_filter = none) (hd : q.date_range = none) :
    applyFilters results q = results := by
  unfold applyFilters
  rw [hc, hd]

/-- The filter stage only ever removes results. -/
theorem applyFilters_sublist (results : List SearchResult) (q : SearchQuery) :
    (applyFilters results q).Sublist results := by
  unfold applyFilters
  cases q.court_filter with
  | none =>
      cases q.date_range with
      | none => exact List.Sublist.refl _
      | some p =>
          cases p
          exact List.filter_sublist _
  | some cf =>
      cases q.date_range with
      | none => exact List.filter_sublist _
      | some p =>
          cases p
          exact (List.filter_sublist _).trans (List.filter_sublist _)

/-- Every returned result comes from the merged (pre-sort) list. -/
theorem executeHybridSearch_subset (env : SearchEnv) (q : SearchQuery) :
    ∀ r ∈ executeHybridSearch env q, r ∈ (hybridMerged env q).1 := by
  intro r hr
  unfold executeHybridSearch at hr
  have h1 := (List.take_sublist _ _).subset hr
  have h2 := (applyFilters_sublist _ _).subset h1
  exact (List.mergeSort_perm (hybridMerged env q).1 scoreDesc).subset h2

/-- Counterexample to claim C1: with per-query cap 3 and configured cap
1, a fusion of three results returns all three — `execute_hybrid_search`
truncates to `query.max_results.unwrap_or(config.max_results)`, not to
the minimum of the two caps — and `search_with_params` hands that list
through. -/
theorem c1_truncation_counterexample :
    qC1.max_results = some 3 ∧ qC1.config.max_results = 1
    ∧ (searchWithParams envC1 cache0 qC1 0).result
        = .ok (executeHybridSearch envC1 qC1)
    ∧ (executeHybridSearch envC1 qC1).length = 3
    ∧ ¬ (executeHybridSearch envC1 qC1).length ≤ Nat.min 3 1 := by
  have hlen : (executeHybridSearch envC1 qC1).length = 3 := by
    unfold executeHybridSearch
    dsimp only
    rw [applyFilters_none _ _ rfl rfl, List.length_take, List.length_mergeSort]
    have h3 : (hybridMerged envC1 qC1).1.length = 3 := by decide
    rw [h3]
    rfl
  refine ⟨rfl, rfl, ?_, hlen, by rw [hlen]; decide⟩
  have hval : validateQuery envC1.search_cfg qC1 = .ok () := by rfl
  simp [searchWithParams, hval, show envC1.search_cfg.enable_query_cache = false
    from rfl]

/-- Claim C1 as amended: the final list is the sorted-then-filtered
fusion truncated to `query.max_results` when present and to
`config.max_results` otherwise (not to their minimum); it never exceeds
that bound and stays sorted by descending score, so the retained
results are the top-scored ones of the filtered list. -/
theorem c1_truncation_amended (env : SearchEnv) (q : SearchQuery) :
    (executeHybridSearch env q).length ≤ q.max_results.getD q.config.max_results
    ∧ (executeHybridSearch env q).Pairwise (fun a b => b.score ≤ a.score)
    ∧ executeHybridSearch env q
        = (applyFilters ((hybridMerged env q).1.mergeSort scoreDesc) q).take
            (q.max_results.getD q.config.max_results) := by
  refine ⟨List.length_take_le _ _, ?_, rfl⟩
  have hsorted : ((hybridMerged env q).1.mergeSort scoreDesc).Pairwise
      (fun a b => scoreDesc a b = true) :=
    List.sorted_mergeSort
      (fun a b c hab hbc => by
        simp only [scoreDesc, decide_eq_true_eq] at hab hbc ⊢
        exact hbc.trans hab)
      (fun a b => by
        simp only [scoreDesc]
        rcases le_total b.score a.score with h | h
        · simp [h]
        · simp [h])
      (hybridMerged env q).1
  have hfilter : (applyFilters ((hybridMerged env q).1.mergeSort scoreDesc) q).Pairwise
      (fun a b => scoreDesc a b = true) :=
    List.Pairwise.sublist (applyFilters_sublist _ q) hsorted
  have htake : ((applyFilters ((hybridMerged env q).1.mergeSort scoreDesc) q).take
      (q.max_results.getD q.config.max_results)).Pairwise
      (fun a b => scoreDesc a b = true) :=
    List.Pairwise.sublist (List.take_sublist _ _) hfilter
  exact htake.imp (fun hab => by simpa [scoreDesc] using hab)

/-- Evidence for claim C4 (a code bug): `HnswIndex::add_vector` is a
`TODO` stub that returns `Ok(())` for every embedding.  A
1-dimensional vector offered to a 768-dimensional index is accepted,
not rejected with a configuration-mismatch error; indeed no input at
all is ever rejected. -/
theorem c4_dimension_check_missing :
    (hnswC4.add_vector ⟨1, 0, none⟩ [0]).2 = .ok ()
    ∧ ([(0 : ℚ)].length ≠ hnswC4.config.dimension)
    ∧ ∀ (idx : HnswIndex) (d : DocRef) (e : List ℚ),
        (idx.add_vector d e).2 = .ok () :=
  ⟨rfl, by decide, fun idx d e => rfl⟩

/-- Facts about the lexical-stage fold of `execute_hybrid_search`:
every emitted result's case id is recorded in `seen_cases`, result
case ids stay pairwise distinct, `seen_cases` only grows, every newly
emitted result is an `Exact` match scored `exact_match_weight`, and a
DocRef whose case has metadata leaves its case id in `seen_cases`. -/
theorem trieFold_facts (env : SearchEnv) (w : ℚ)
    (hstorage : ∀ cid md, env.storage cid = some md → md.id = cid)
    (ds : List DocRef) :
    ∀ acc : List SearchResult × List CaseId,
    (∀ r ∈ acc.1, r.case_metadata.id ∈ acc.2) →
    (acc.1.map (fun r => r.case_metadata.id)).Nodup →
    (∀ r ∈ (ds.foldl (trieStep env w) acc).1,
        r.case_metadata.id ∈ (ds.foldl (trieStep env w) acc).2)
    ∧ ((ds.foldl (trieStep env w) acc).1.map (fun r => r.case_metadata.id)).Nodup
    ∧ (∀ x ∈ acc.2, x ∈ (ds.foldl (trieStep env w) acc).2)
    ∧ (∀ r ∈ (ds.foldl (trieStep env w) acc).1,
        r ∈ acc.1 ∨ (r.match_type = .exact ∧ r.score = w))
    ∧ (∀ c : CaseId, (c ∈ acc.2 ∨ ∃ d ∈ ds, d.case_id = c ∧ (env.storage c).isSome) →
        c ∈ (ds.foldl (trieStep env w) acc).2) := by
  induction ds with
  | nil =>
      intro acc h1 h2
      refine ⟨h1, h2, fun x hx => hx, fun r hr => .inl hr, ?_⟩
      intro c hc
      rcases hc with hc | ⟨d, hd, _⟩
      · exact hc
      · simp at hd
  | cons d ds ih =>
      intro acc h1 h2
      simp only [List.foldl_cons]
      have hstep : (∀ r ∈ (trieStep env w acc d).1,
            r.case_metadata.id ∈ (trieStep env w acc d).2)
          ∧ ((trieStep env w acc d).1.map (fun r => r.case_metadata.id)).Nodup
          ∧ (∀ x ∈ acc.2, x ∈ (trieStep env w acc d).2)
          ∧ (∀ r ∈ (trieStep env w acc d).1,
              r ∈ acc.1 ∨ (r.match_type = .exact ∧ r.score = w))
          ∧ ((env.storage d.case_id).isSome → d.case_id ∈ (trieStep env w acc d).2) := by
        unfold trieStep
        cases hs : env.storage d.case_id with
        | none =>
            dsimp only
            exact ⟨h1, h2, fun x hx => hx, fun r hr => .inl hr,
              fun hsome => by simp at hsome⟩
        | some md =>
            dsimp only
            have hmd : md.id = d.case_id := hstorage _ _ hs
            by_cases hseen : d.case_id ∈ acc.2
            · rw [if_pos hseen]
              exact ⟨h1, h2, fun x hx => hx, fun r hr => .inl hr, fun _ => hseen⟩
            · rw [if_neg hseen]
              refine ⟨?_, ?_, ?_, ?_, ?_⟩
              · intro r hr
                rcases List.mem_append.1 hr with hr | hr
                · exact List.mem_append.2 (.inl (h1 r hr))
                · have : r = ⟨md, w, .exact, snippetFor d⟩ := by simpa using hr
                  subst this
                  exact List.mem_append.2 (.inr (by simp [hmd]))
              · rw [List.map_append]
                simp only [List.map_cons, List.map_nil]
                rw [List.nodup_append]
                refine ⟨h2, by simp, ?_⟩
                intro x hx
                simp only [List.mem_singleton]
                intro hxe
                rcases List.mem_map.1 hx with ⟨r, hr, hrx⟩
                refine absurd ?_ hseen
                have h3 := h1 r hr
                rw [hrx, hxe] at h3
                exact hmd ▸ h3
              · intro x hx
                exact List.mem_append.2 (.inl hx)
              · intro r hr
                rcases List.mem_append.1 hr with hr | hr
                · exact .inl hr
                · have : r = ⟨md, w, .exact, snippetFor d⟩ := by simpa using hr
                  subst this
                  exact .inr ⟨rfl, rfl⟩
              · intro _
                exact List.mem_append.2 (.inr (by simp))
      obtain ⟨s1, s2, s3, s4, s5⟩ := hstep
      obtain ⟨i1, i2, i3, i4, i5⟩ := ih (trieStep env w acc d) s1 s2
      refine ⟨i1, i2, fun x hx => i3 x (s3 x hx), ?_, ?_⟩
      · intro r hr
        rcases i4 r hr with hr2 | hr2
        · rcases s4 r hr2 with hr3 | hr3
          · exact .inl hr3
          · exact .inr hr3
        · exact .inr hr2
      · intro c hc
        rcases hc with hc | ⟨d', hd', hc', hsome⟩
        · exact i3 c (s3 c hc)
        · rcases List.mem_cons.1 hd' with hd2 | hd2
          · subst hd2
            subst hc'
            exact i3 _ (s5 hsome)
          · exact i5 c (.inr ⟨d', hd2, hc', hsome⟩)

/-- Facts about the semantic-stage fold of `execute_hybrid_search`:
the invariants of `trieFold_facts` are preserved and, crucially, every
result present afterwards either was there before or has a case id that
was not yet in `seen_cases` — a case already seen is never re-emitted. -/
theorem semFold_facts (env : SearchEnv) (minSim : ℚ)
    (hstorage : ∀ cid md, env.storage cid = some md → md.id = cid)
    (vs : List VectorSearchResult) :
    ∀ acc : List SearchResult × List CaseId,
    (∀ r ∈ acc.1, r.case_metadata.id ∈ acc.2) →
    (acc.1.map (fun r => r.case_metadata.id)).Nodup →
    (∀ r ∈ (vs.foldl (semStep env minSim) acc).1,
        r.case_metadata.id ∈ (vs.foldl (semStep env minSim) acc).2)
    ∧ ((vs.foldl (semStep env minSim) acc).1.map (fun r => r.case_metadata.id)).Nodup
    ∧ (∀ x ∈ acc.2, x ∈ (vs.foldl (semStep env minSim) acc).2)
    ∧ (∀ r ∈ (vs.foldl (semStep env minSim) acc).1,
        r ∈ acc.1 ∨ r.case_metadata.id ∉ acc.2) := by
  induction vs with
  | nil =>
      intro acc h1 h2
      exact ⟨h1, h2, fun x hx => hx, fun r hr => .inl hr⟩
  | cons v vs ih =>
      intro acc h1 h2
      simp only [List.foldl_cons]
      have hstep : (∀ r ∈ (semStep env minSim acc v).1,
            r.case_metadata.id ∈ (semStep env minSim acc v).2)
          ∧ ((semStep env minSim acc v).1.map (fun r => r.case_metadata.id)).Nodup
          ∧ (∀ x ∈ acc.2, x ∈ (semStep env minSim acc v).2)
          ∧ (∀ r ∈ (semStep env minSim acc v).1,
              r ∈ acc.1 ∨ r.case_metadata.id ∉ acc.2) := by
        unfold semStep
        by_cases hsim : minSim ≤ v.similarity_score
        · rw [if_pos hsim]
          cases hs : env.storage v.doc_ref.case_id with
          | none =>
              dsimp only
              exact ⟨h1, h2, fun x hx => hx, fun r hr => .inl hr⟩
          | some md =>
              dsimp only
              have hmd : md.id = v.doc_ref.case_id := hstorage _ _ hs
              by_cases hseen : v.doc_ref.case_id ∈ acc.2
              · rw [if_pos hseen]
                exact ⟨h1, h2, fun x hx => hx, fun r hr => .inl hr⟩
              · rw [if_neg hseen]
                refine ⟨?_, ?_, ?_, ?_⟩
                · intro r hr
                  rcases List.mem_append.1 hr with hr | hr
                  · exact List.mem_append.2 (.inl (h1 r hr))
                  · have hre : r = ⟨md, v.similarity_score, .semantic,
                        snippetFor v.doc_ref⟩ := by simpa using hr
                    subst hre
                    exact List.mem_append.2 (.inr (by simp [hmd]))
                · rw [List.map_append]
                  simp only [List.map_cons, List.map_nil]
                  rw [List.nodup_append]
                  refine ⟨h2, by simp, ?_⟩
                  intro x hx
                  simp only [List.mem_singleton]
                  intro hxe
                  rcases List.mem_map.1 hx with ⟨r, hr, hrx⟩
                  refine absurd ?_ hseen
                  have h3 := h1 r hr
                  rw [hrx, hxe] at h3
                  exact hmd ▸ h3
                · intro x hx
                  exact List.mem_append.2 (.inl hx)
                · intro r hr
                  rcases List.mem_append.1 hr with hr | hr
                  · exact .inl hr
                  · have hre : r = ⟨md, v.similarity_score, .semantic,
                        snippetFor v.doc_ref⟩ := by simpa using hr
                    subst hre
                    exact .inr (by simpa [hmd] using hseen)
        · rw [if_neg hsim]
          exact ⟨h1, h2, fun x hx => hx, fun r hr => .inl hr⟩
      obtain ⟨s1, s2, s3, s4⟩ := hstep
      obtain ⟨i1, i2, i3, i4⟩ := ih (semStep env minSim acc v) s1 s2
      refine ⟨i1, i2, fun x hx => i3 x (s3 x hx), ?_⟩
      intro r hr
      rcases i4 r hr with hr2 | hr2
      · rcases s4 r hr2 with hr3 | hr3
        · exact .inl hr3
        · exact .inr hr3
      · refine .inr ?_
        intro hc
        exact hr2 (s3 _ hc)

/-- Dedup facts about the merged (pre-sort) fusion list: case ids are
pairwise distinct, and whenever the lexical stage ran and found a case
(with metadata), every merged result for that case id is the lexical
one — `Exact`, scored `exact_match_weight`. -/
theorem hybridMerged_facts (env : SearchEnv) (q : SearchQuery)
    (hstorage : ∀ cid md, env.storage cid = some md → md.id = cid) :
    ((hybridMerged env q).1.map (fun r => r.case_metadata.id)).Nodup
    ∧ (q.config.enable_pfx = true →
        ∀ c : CaseId, (∃ d ∈ (env.trie.search q.query).exact_matches,
            d.case_id = c ∧ (env.storage c).isSome) →
        ∀ r ∈ (hybridMerged env q).1, r.case_metadata.id = c →
          r.match_type = .exact ∧ r.score = q.config.exact_match_weight) := by
  unfold hybridMerged
  by_cases hpfx : q.config.enable_pfx = true
  · rw [if_pos hpfx]
    obtain ⟨t1, t2, t3, t4, t5⟩ := trieFold_facts env q.config.exact_match_weight
      hstorage ((env.trie.search q.query).exact_matches) ([], []) (by simp) (by simp)
    set AT := ((env.trie.search q.query).exact_matches).foldl
      (trieStep env q.config.exact_match_weight) ([], []) with hAT
    have hexact : ∀ r ∈ AT.1,
        r.match_type = .exact ∧ r.score = q.config.exact_match_weight := by
      intro r hr
      rcases t4 r hr with h | h
      · simp at h
      · exact h
    by_cases hgate : q.config.enable_semantic = true ∧ AT.1.length < q.config.max_results
    · rw [if_pos hgate]
      obtain ⟨m1, m2, m3, m4⟩ := semFold_facts env q.config.min_similarity hstorage
        (env.vectorSearch q.query) AT t1 t2
      refine ⟨m2, ?_⟩
      intro _ c hlex r hr hid
      have hcseen : c ∈ AT.2 := t5 c (.inr hlex)
      rcases m4 r hr with hin | hout
      · exact hexact r hin
      · exact absurd (hid ▸ hcseen) hout
    · rw [if_neg hgate]
      refine ⟨t2, ?_⟩
      intro _ c hlex r hr hid
      exact hexact r hr
  · rw [if_neg hpfx]
    by_cases hgate : q.config.enable_semantic = true
        ∧ (([], []) : List SearchResult × List CaseId).1.length < q.config.max_results
    · rw [if_pos hgate]
      obtain ⟨m1, m2, m3, m4⟩ := semFold_facts env q.config.min_similarity hstorage
        (env.vectorSearch q.query) ([], []) (by simp) (by simp)
      exact ⟨m2, fun hp => absurd hp hpfx⟩
    · rw [if_neg hgate]
      exact ⟨by simp, fun hp => absurd hp hpfx⟩

/-- Claim C3: the final result list never repeats a case id, and a case
found by both the lexical stage (trie exact match with resolvable
metadata, `enable_prefix` on) and the semantic stage (vector result at
or above `min_similarity`) appears, if at all, only as the lexical
result: match type `Exact`, score `exact_match_weight`.  The storage
hypothesis is the collaborator contract: `get_case_metadata(id)`
returns that case's record. -/
theorem c3_fusion_dedup (env : SearchEnv) (q : SearchQuery)
    (hstorage : ∀ cid md, env.storage cid = some md → md.id = cid) :
    ((executeHybridSearch env q).map (fun r => r.case_metadata.id)).Nodup
    ∧ ∀ c : CaseId, q.config.enable_pfx = true →
        (∃ d ∈ (env.trie.search q.query).exact_matches,
            d.case_id = c ∧ (env.storage c).isSome) →
        (∃ v ∈ env.vectorSearch q.query, v.doc_ref.case_id = c
            ∧ q.config.min_similarity ≤ v.similarity_score) →
        ∀ r ∈ executeHybridSearch env q, r.case_metadata.id = c →
          r.match_type = .exact ∧ r.score = q.config.exact_match_weight := by
  obtain ⟨hnodup, hexact⟩ := hybridMerged_facts env q hstorage
  constructor
  · have hperm := (List.mergeSort_perm (hybridMerged env q).1 scoreDesc).map
      (fun r => r.case_metadata.id)
    have hsorted : (((hybridMerged env q).1.mergeSort scoreDesc).map
        (fun r => r.case_metadata.id)).Nodup := hperm.nodup_iff.2 hnodup
    have hfil := List.Nodup.sublist
      ((applyFilters_sublist ((hybridMerged env q).1.mergeSort scoreDesc) q).map
        (fun r : SearchResult => r.case_metadata.id)) hsorted
    exact List.Nodup.sublist
      ((List.take_sublist (q.max_results.getD q.config.max_results)
        (applyFilters ((hybridMerged env q).1.mergeSort scoreDesc) q)).map
        (fun r : SearchResult => r.case_metadata.id)) hfil
  · intro c hpfx hlex hsem r hr hid
    exact hexact hpfx c hlex r (executeHybridSearch_subset env q r hr) hid

/-- Witness for C3: case 1 is found by the case-name trie and by the
vector stage in `envC3`. -/
theorem c3_fusion_dedup_witness :
    (∀ cid md, envC3.storage cid = some md → md.id = cid)
    ∧ qC3.config.enable_pfx = true
    ∧ (∃ d ∈ (envC3.trie.search "alpha").exact_matches,
        d.case_id = 1 ∧ (envC3.storage 1).isSome)
    ∧ (∃ v ∈ envC3.vectorSearch "alpha", v.doc_ref.case_id = 1
        ∧ qC3.config.min_similarity ≤ v.similarity_score)
    ∧ ((executeHybridSearch envC3 qC3).map (fun r => r.case_metadata.id)).Nodup :=
  have hst : ∀ cid md, envC3.storage cid = some md → md.id = cid := by
    intro cid md h
    injection h with h2
    rw [← h2]
  have hlex : ∃ d ∈ (envC3.trie.search "alpha").exact_matches,
      d.case_id = 1 ∧ (envC3.storage 1).isSome := by decide
  have hsem : ∃ v ∈ envC3.vectorSearch "alpha", v.doc_ref.case_id = 1
      ∧ qC3.config.min_similarity ≤ v.similarity_score :=
    ⟨⟨⟨1, 0, none⟩, 9/10⟩, by simp [envC3], rfl, by norm_num [qC3]⟩
  ⟨hst, rfl, hlex, hsem, (c3_fusion_dedup envC3 qC3 hst).1⟩

end TrieSearch
